import Mathlib

/-!
Verification of the incremental reconciliation engine of the kindle export
feature, shallowly embedded from `src/kindle/export.rs` and the `Book` data
model from `src/kindle/book.rs`.

Modelling conventions:
* `Book` mirrors the Rust struct field by field; its derived `Eq`/`PartialEq`
  compares all fields, which `DecidableEq` mirrors here.
* The index (`ExportIndex` in Rust) is a vector of `ExportItem`; we represent
  it directly by `List ExportItem`.
* `check_book` interacts with the user through `prompt_user question`; the
  answers are embedded as a function `policy : String → Bool` applied to the
  exact question strings the code passes to `prompt_user`.  `Local::now()`
  is embedded as an explicit parameter `now`.  The `warn!` call that fires
  when the first matching entry was already checked is embedded as the
  `warned` field of the result; `println!` logging that does not affect
  state is elided.
* The index file on disk is embedded as `Option RawIndexData`: `none` when no
  file exists at the path, `some (RawIndexData.wellFormed items)` for a file
  the toml parser accepts (carrying the parsed list of persisted items), and
  `some RawIndexData.corrupt` for a file it rejects.  The serde attributes on
  `ExportItem` (`checked` is `skip_serializing, skip_deserializing, default`)
  are embedded by `persistItem` / `loadItem`.
-/

namespace NcliKindle

/-- Mirrors `Book` in `src/kindle/book.rs` (fields `asin`, `title`,
`subtitle : Option<String>`, `author`, `image_url`, `last_opened_date`).
The derived equality compares every field, exactly like the derived
`PartialEq`/`Eq` on the Rust struct. -/
structure Book where
  asin : String
  title : String
  subtitle : Option String
  author : String
  image_url : String
  last_opened_date : String
  deriving DecidableEq, Repr

/-- Mirrors `ExportItem` in `src/kindle/export.rs`: `last_updated_time`,
the run-scoped `checked` flag (not serialized), and the stored `info : Book`. -/
structure ExportItem where
  last_updated_time : String
  checked : Bool
  info : Book
  deriving DecidableEq, Repr

/-- The serialized form of an `ExportItem`: the serde attributes on `checked`
(`skip_serializing, skip_deserializing, default`) mean only
`last_updated_time` and `info` reach the toml file. -/
structure ExportItemPersisted where
  last_updated_time : String
  info : Book
  deriving DecidableEq, Repr

/-- Projection performed by serialization of one entry: drop `checked`. -/
def persistItem (e : ExportItem) : ExportItemPersisted :=
  ⟨e.last_updated_time, e.info⟩

/-- Deserialization of one entry: `checked` takes its serde `default`,
namely `false`. -/
def loadItem (p : ExportItemPersisted) : ExportItem :=
  ⟨p.last_updated_time, false, p.info⟩

/-- Content of the index file as seen through `toml::from_str`: either data
the parser accepts (already decoded) or data it rejects.  The toml parser
itself is an external crate, so only its accept/reject outcome is modelled. -/
inductive RawIndexData where
  | wellFormed (items : List ExportItemPersisted)
  | corrupt
  deriving DecidableEq, Repr

/-- Result of one `check_book` call: the updated index (`self.books` after
the call), the returned boolean (`true` = fetch the book data), and whether
the `warn!("A book is checked twice: ...")` branch fired. -/
structure CheckResult where
  books : List ExportItem
  fetch : Bool
  warned : Bool
  deriving DecidableEq, Repr

/-- Question passed to `prompt_user` when a modified book is found. -/
def q_fetch_changed : String := "Do you want to fetch the latest data for this book?"

/-- Question passed to `prompt_user` after declining to fetch a modified book. -/
def q_update_meta : String := "Do you want to update the indexed metadata?"

/-- Question passed to `prompt_user` when a book is absent from the index. -/
def q_fetch_new : String := "Do you want to fetch the book data?"

/-- Question passed to `prompt_user` after declining to fetch an absent book. -/
def q_add_index : String := "Do you want to add the book to the index?"

/-- Embeds `ExportIndex::check_book` (src/kindle/export.rs, lines 196-289).
The Rust loop `for indexed_book in self.books.iter_mut()` with `continue` on
ASIN mismatch becomes structural recursion: a non-matching head is kept and
the scan continues on the tail; at the first entry whose `info.asin` equals
`book.asin` the loop body runs and returns; if the scan falls off the end,
the not-found tail of the function runs, appending any new entry at the back
(the recursion re-conses every skipped entry in front of the result). -/
def check_book (policy : String → Bool) (now : String) (book : Book) :
    List ExportItem → CheckResult
  | [] =>
    -- A book couldn't be found on the index
    let item : ExportItem := ⟨now, true, book⟩
    if policy q_fetch_new then ⟨[item], true, false⟩
    else if policy q_add_index then ⟨[item], false, false⟩
    else ⟨[], false, false⟩
  | indexed :: rest =>
    if indexed.info.asin ≠ book.asin then
      -- Skip if the ASIN is different
      let r := check_book policy now book rest
      ⟨indexed :: r.books, r.fetch, r.warned⟩
    else
      -- warn! fires when the entry was already checked; then checked := true
      let warned := indexed.checked
      if indexed.info = book then
        ⟨{ indexed with checked := true } :: rest, false, warned⟩
      else if policy q_fetch_changed then
        -- info := book, last_updated_time := now, checked := true: with the
        -- three fields of ExportItem all reassigned, the entry is ⟨now, true, book⟩
        ⟨⟨now, true, book⟩ :: rest, true, warned⟩
      else if policy q_update_meta then
        ⟨⟨now, true, book⟩ :: rest, false, warned⟩
      else
        ⟨{ indexed with checked := true } :: rest, false, warned⟩

/-- The reconciliation pass of `export_async` (src/kindle/export.rs, lines
62-73) restricted to its effect on the index: `check_book` is called once per
observed book, in listing order.  Each call takes its own `Local::now()`
timestamp, embedded as `nows b`, and the policy may answer differently per
book.  The returned list of booleans records each call's decision in
order. -/
def reconcile_all (policy : Book → String → Bool) (nows : Book → String) :
    List ExportItem → List Book → List ExportItem × List Bool
  | books, [] => (books, [])
  | books, b :: rest =>
    let r := check_book (policy b) (nows b) b books
    let rec' := reconcile_all policy nows r.books rest
    (rec'.1, r.fetch :: rec'.2)

/-- Embeds `ExportIndex::warn_unchecked_books` (lines 292-298): the books
whose entries were left unchecked, in index order, one warning each. -/
def warn_unchecked_books (books : List ExportItem) : List Book :=
  (books.filter fun b => !b.checked).map (·.info)

/-- Serialization of the index body: the entry list in memory order, each
entry through `persistItem`.  This is what `toml::to_string(self)` encodes in
`ExportIndex::save` (lines 177-182). -/
def serialize_index (books : List ExportItem) : List ExportItemPersisted :=
  books.map persistItem

/-- Embeds `ExportIndex::save`: the file at the path is replaced by the
serialized index, whatever it held before. -/
def save (books : List ExportItem) : RawIndexData :=
  .wellFormed (serialize_index books)

/-- Embeds `ExportIndex::load_or_default` (lines 166-175): an absent file
yields the empty index; a parsable file yields its entries with `checked`
defaulted to `false`; an unparsable file is an error (`toml::from_str`
failure propagated through `?`). -/
def load_or_default : Option RawIndexData → Except String (List ExportItem)
  | none => .ok []
  | some (.wellFormed items) => .ok (items.map loadItem)
  | some .corrupt => .error "CorruptIndex"

/-- The first index entry sharing the observed book's ASIN, if any
(the entry `check_book`'s scan stops at). -/
def first_match (books : List ExportItem) (b : Book) : Option ExportItem :=
  books.find? fun e => e.info.asin == b.asin

/-- The index is up to date for the listing: every observed book's first
matching entry stores exactly that book. -/
def up_to_date (books : List ExportItem) (listing : List Book) : Prop :=
  ∀ b ∈ listing, ∃ e, first_match books b = some e ∧ e.info = b

/-- How one `check_book` call for `book` may relate a pre-existing entry to
the entry at the same position afterwards: untouched, or (only at a matching
ASIN) marked checked, or fully refreshed to the observed book. -/
def step_rel (now : String) (book : Book) (old new : ExportItem) : Prop :=
  new = old ∨ (old.info.asin = book.asin ∧
    (new = { old with checked := true } ∨ new = ⟨now, true, book⟩))

/-- How a whole pass over `listing` may relate a pre-existing entry to the
entry at the same position afterwards: the ASIN is preserved, `checked` is
only ever gained, the stored book either stays or comes from the listing,
and an entry whose ASIN never occurs in the listing is left exactly as it
was. -/
def pass_rel (listing : List Book) (old new : ExportItem) : Prop :=
  new.info.asin = old.info.asin ∧
  (old.checked = true → new.checked = true) ∧
  (new.info = old.info ∨ new.info ∈ listing) ∧
  (old.info.asin ∉ listing.map (·.asin) → new = old)

/-- Outcome of one `export_async` run (src/kindle/export.rs, lines 47-85),
restricted to the index file: the returned `Result`, the content of the index
file at the target afterwards, and how many times `save` ran. -/
structure RunResult where
  outcome : Except String Unit
  stored : Option RawIndexData
  saves : Nat
  deriving Repr

/-- The loop of `export_async` (lines 62-73): for each observed book in
listing order, `check_book`; on a `true` decision the annotations are fetched
and rendered to markdown, either of which can fail (`?` aborts the whole
run).  `fetchOk b = false` embeds a failing `get_annotations` or
`export_data_to_markdown` for `b`. -/
def run_loop (policy : Book → String → Bool) (nows : Book → String)
    (fetchOk : Book → Bool) :
    List ExportItem → List Book → Except String (List ExportItem)
  | books, [] => .ok books
  | books, b :: rest =>
    let r := check_book (policy b) (nows b) b books
    if r.fetch then
      if fetchOk b then run_loop policy nows fetchOk r.books rest
      else .error "fetch or render failed"
    else run_loop policy nows fetchOk r.books rest

/-- Embeds `export_async` (lines 47-85) from the point where the listing has
been obtained: load the index from the file (abort on failure), run the loop
over the listing (abort on a per-item failure, leaving the file untouched),
warn about unchecked books, then save exactly once, overwriting the file. -/
def export_async (stored : Option RawIndexData) (listing : List Book)
    (policy : Book → String → Bool) (nows : Book → String)
    (fetchOk : Book → Bool) : RunResult :=
  match load_or_default stored with
  | .error e => ⟨.error e, stored, 0⟩
  | .ok books =>
    match run_loop policy nows fetchOk books listing with
    | .error e => ⟨.error e, stored, 0⟩
    | .ok fin => ⟨.ok (), some (save fin), 1⟩

/-- Whitespace as removed by `str::trim`, for the ASCII whitespace
characters. -/
def is_space (c : Char) : Bool := c == ' ' || c == '\n' || c == '\t' || c == '\r'

/-- Lower-casing of one character as done by `str::to_lowercase`, for the
ASCII range. -/
def lower_char (c : Char) : Char :=
  if 'A' ≤ c ∧ c ≤ 'Z' then Char.ofNat (c.toNat + 32) else c

/-- Removal of leading and trailing whitespace from a character sequence. -/
def trim_chars (l : List Char) : List Char :=
  ((l.dropWhile is_space).reverse.dropWhile is_space).reverse

/-- The normalization `prompt_user` applies to each line read from stdin:
`input.trim().to_lowercase()` (`read_line` keeps the trailing newline, which
`trim` removes along with any other surrounding whitespace). -/
def normalize_input (s : String) : String :=
  String.mk ((trim_chars s.data).map lower_char)

/-- The clarification printed by `prompt_user` on unparsable input. -/
def clarification : String :=
  "Unable to parse input. Please response using the provided options (case-insensitive)."

/-- Embeds `prompt_user` (src/kindle/export.rs, lines 324-343) against a
finite queue of stdin lines.  Each iteration prints the question followed by
`" (y/n): "`, reads one line, and accepts it when it normalizes to "y" or
"n"; otherwise it prints the clarification and loops.  The result is the
decision, the lines printed, and the unconsumed queue; `none` means the queue
ran out before a decision (the real loop would still be waiting on stdin —
there is no error path). -/
def prompt_user (question : String) :
    List String → Option (Bool × List String × List String)
  | [] => none
  | line :: rest =>
    let shown := question ++ " (y/n): "
    if normalize_input line = "y" then some (true, [shown], rest)
    else if normalize_input line = "n" then some (false, [shown], rest)
    else
      match prompt_user question rest with
      | some (b, outs, rem) => some (b, shown :: clarification :: outs, rem)
      | none => none

/-- A concrete book used to exhibit a duplicate-ASIN index. -/
def dupBook : Book := ⟨"A", "T", none, "a", "u", "d"⟩

/-- A concrete unchecked index entry storing `dupBook`. -/
def dupEntry : ExportItem := ⟨"t0", false, dupBook⟩

/-- A concrete index in which the ASIN "A" appears in two entries. -/
def dupIndex : List ExportItem := [dupEntry, dupEntry]

/-- A concrete observed book with ASIN "A" and a changed title. -/
def obsBook : Book := ⟨"A", "T2", none, "a", "u", "d"⟩

/-- A concrete unchecked index entry whose ASIN "B" matches no observed
book in the listings used below. -/
def otherEntry : ExportItem := ⟨"t0", false, ⟨"B", "T", none, "a", "u", "d"⟩⟩

/-- Scanning past a prefix of entries with foreign ASINs just re-conses them:
`check_book` on `pre ++ rest` equals `check_book` on `rest` with `pre` put
back in front, when no entry of `pre` shares the observed ASIN. -/
theorem check_book_skip_pre (policy : String → Bool) (now : String) (book : Book)
    (pre rest : List ExportItem) (h : ∀ x ∈ pre, x.info.asin ≠ book.asin) :
    check_book policy now book (pre ++ rest) =
      ⟨pre ++ (check_book policy now book rest).books,
       (check_book policy now book rest).fetch,
       (check_book policy now book rest).warned⟩ := by
  induction pre with
  | nil => simp
  | cons x xs ih =>
    have hx : x.info.asin ≠ book.asin := h x (by simp)
    have ih' := ih fun y hy => h y (by simp [hy])
    simp [check_book, hx, ih']

/-- Behaviour of `check_book` when the whole index was scanned without a
match, written as one equation over the two policy answers. -/
theorem check_book_not_found (policy : String → Bool) (now : String) (book : Book)
    (books : List ExportItem) (h : ∀ x ∈ books, x.info.asin ≠ book.asin) :
    check_book policy now book books =
      if policy q_fetch_new then ⟨books ++ [⟨now, true, book⟩], true, false⟩
      else if policy q_add_index then ⟨books ++ [⟨now, true, book⟩], false, false⟩
      else ⟨books, false, false⟩ := by
  have := check_book_skip_pre policy now book books [] (by simpa using h)
  rcases hf : policy q_fetch_new with _ | _ <;>
    rcases ha : policy q_add_index with _ | _ <;>
      simp_all [check_book]

/-- C1: on a `NotFound` book, `check_book` follows the decision table: a yes
to "fetch the book data?" appends exactly one entry (the observed book,
`checked = true`, timestamp `now`) and returns `Fetch`; a no followed by a
yes to "add the book to the index?" appends the same entry and returns
`Skip`; two noes leave the index unchanged and return `Skip`. -/
theorem check_book_notFound_decision_table (policy : String → Bool) (now : String)
    (book : Book) (books : List ExportItem)
    (h : ∀ x ∈ books, x.info.asin ≠ book.asin) :
    (policy q_fetch_new = true →
      check_book policy now book books =
        ⟨books ++ [⟨now, true, book⟩], true, false⟩) ∧
    (policy q_fetch_new = false → policy q_add_index = true →
      check_book policy now book books =
        ⟨books ++ [⟨now, true, book⟩], false, false⟩) ∧
    (policy q_fetch_new = false → policy q_add_index = false →
      check_book policy now book books = ⟨books, false, false⟩) := by
  have key := check_book_not_found policy now book books h
  refine ⟨fun hf => ?_, fun hf ha => ?_, fun hf ha => ?_⟩
  · simp [key, hf]
  · simp [key, hf, ha]
  · simp [key, hf, ha]

/-- Witness for C1: the decision table evaluated on an empty index and a
concrete book, for an always-yes policy. -/
theorem check_book_notFound_decision_table_witness :
    check_book (fun _ => true) "t1"
        ⟨"A", "T", none, "a", "u", "d"⟩ [] =
      ⟨[⟨"t1", true, ⟨"A", "T", none, "a", "u", "d"⟩⟩], true, false⟩ :=
  (check_book_notFound_decision_table (fun _ => true) "t1"
      ⟨"A", "T", none, "a", "u", "d"⟩ [] (by simp)).1 rfl

/-- Behaviour of `check_book` when the scan reaches a first matching entry
`e` (everything before it has a foreign ASIN), written as one equation over
the equality test and the two policy answers. -/
theorem check_book_found (policy : String → Bool) (now : String) (book : Book)
    (pre : List ExportItem) (e : ExportItem) (post : List ExportItem)
    (hpre : ∀ x ∈ pre, x.info.asin ≠ book.asin)
    (hmatch : e.info.asin = book.asin) :
    check_book policy now book (pre ++ e :: post) =
      if e.info = book then
        ⟨pre ++ { e with checked := true } :: post, false, e.checked⟩
      else if policy q_fetch_changed then
        ⟨pre ++ ⟨now, true, book⟩ :: post, true, e.checked⟩
      else if policy q_update_meta then
        ⟨pre ++ ⟨now, true, book⟩ :: post, false, e.checked⟩
      else
        ⟨pre ++ { e with checked := true } :: post, false, e.checked⟩ := by
  rw [check_book_skip_pre policy now book pre (e :: post) hpre]
  rcases he : decide (e.info = book) with _ | _
  · have he' : ¬e.info = book := of_decide_eq_false he
    rcases hf : policy q_fetch_changed with _ | _ <;>
      rcases hu : policy q_update_meta with _ | _ <;>
        simp [check_book, hmatch, he', hf, hu]
  · have he' : e.info = book := of_decide_eq_true he
    simp [check_book, hmatch, he']

/-- C2: on a `FoundChanged` book (first matching entry stores a record that
differs in at least one attribute), `check_book` follows the decision table:
yes to "fetch the latest data?" replaces the stored record with the observed
book, stamps `now`, marks checked and returns `Fetch`; no-then-yes to
"update the indexed metadata?" performs the same update but returns `Skip`;
two noes leave record and timestamp stale, only mark checked, and return
`Skip`. -/
theorem check_book_foundChanged_decision_table (policy : String → Bool)
    (now : String) (book : Book) (pre : List ExportItem) (e : ExportItem)
    (post : List ExportItem)
    (hpre : ∀ x ∈ pre, x.info.asin ≠ book.asin)
    (hmatch : e.info.asin = book.asin)
    (hdiff : e.info ≠ book) :
    (policy q_fetch_changed = true →
      check_book policy now book (pre ++ e :: post) =
        ⟨pre ++ ⟨now, true, book⟩ :: post, true, e.checked⟩) ∧
    (policy q_fetch_changed = false → policy q_update_meta = true →
      check_book policy now book (pre ++ e :: post) =
        ⟨pre ++ ⟨now, true, book⟩ :: post, false, e.checked⟩) ∧
    (policy q_fetch_changed = false → policy q_update_meta = false →
      check_book policy now book (pre ++ e :: post) =
        ⟨pre ++ { e with checked := true } :: post, false, e.checked⟩) := by
  have key := check_book_found policy now book pre e post hpre hmatch
  refine ⟨fun hf => ?_, fun hf hu => ?_, fun hf hu => ?_⟩
  · simp [key, hdiff, hf]
  · simp [key, hdiff, hf, hu]
  · simp [key, hdiff, hf, hu]

/-- Witness for C2: a one-entry index whose stored record differs from the
observed book only in the title, under an always-yes policy. -/
theorem check_book_foundChanged_decision_table_witness :
    check_book (fun _ => true) "t1" obsBook ([] ++ dupEntry :: []) =
      ⟨[] ++ ⟨"t1", true, obsBook⟩ :: [], true, false⟩ :=
  (check_book_foundChanged_decision_table (fun _ => true) "t1" obsBook
      [] dupEntry [] (by simp) (by decide) (by decide)).1 rfl

/-- Serializing an entry forgets `checked` and keeps the other two fields,
so it is unaffected by re-loading. -/
theorem persistItem_loadItem (p : ExportItemPersisted) :
    persistItem (loadItem p) = p := rfl

/-- Marking an entry checked does not change its serialized form. -/
theorem persistItem_set_checked (e : ExportItem) :
    persistItem { e with checked := true } = persistItem e := rfl

/-- A call on a book whose first matching entry already stores exactly that
book returns `Skip` and changes nothing the index file would record. -/
theorem check_book_unchanged_effect (policy : String → Bool) (now : String)
    (b : Book) (books : List ExportItem)
    (h : ∃ e, first_match books b = some e ∧ e.info = b) :
    (check_book policy now b books).fetch = false ∧
    (check_book policy now b books).books.map persistItem =
      books.map persistItem := by
  induction books with
  | nil => simp [first_match] at h
  | cons x rest ih =>
    obtain ⟨e, he, hinfo⟩ := h
    by_cases hx : x.info.asin = b.asin
    · have hbeq : (x.info.asin == b.asin) = true := by simp [hx]
      rw [first_match] at he
      simp only [List.find?_cons, hbeq, cond_true, Option.some.injEq] at he
      obtain rfl : x = e := he
      have hxb : x.info = b := hinfo
      simp [check_book, hx, hxb, persistItem]
    · have hbeq : (x.info.asin == b.asin) = false := by simp [hx]
      rw [first_match] at he
      simp only [List.find?_cons, hbeq, cond_false] at he
      have ihr := ih ⟨e, he, hinfo⟩
      simp [check_book, hx, ihr.1, ihr.2]

/-- `first_match` only looks at data that survives serialization, so two
indexes with the same serialized form have serialization-equal first
matches. -/
theorem first_match_congr (b : Book) (l₁ l₂ : List ExportItem)
    (h : l₁.map persistItem = l₂.map persistItem) :
    (first_match l₁ b).map persistItem = (first_match l₂ b).map persistItem := by
  induction l₁ generalizing l₂ with
  | nil =>
    have : l₂ = [] := by simpa using h.symm
    subst this; rfl
  | cons x xs ih =>
    cases l₂ with
    | nil => simp at h
    | cons y ys =>
      simp only [List.map_cons, List.cons.injEq] at h
      obtain ⟨h1, h2⟩ := h
      have hinfo : x.info = y.info := congrArg ExportItemPersisted.info h1
      by_cases hx : x.info.asin = b.asin
      · have hxb : (x.info.asin == b.asin) = true := by simp [hx]
        have hyb : (y.info.asin == b.asin) = true := by simp [← hinfo, hx]
        rw [first_match, first_match]
        simp only [List.find?_cons, hxb, hyb, cond_true, Option.map_some']
        exact congrArg some h1
      · have hxb : (x.info.asin == b.asin) = false := by simp [hx]
        have hyb : (y.info.asin == b.asin) = false := by simp [← hinfo, hx]
        rw [first_match, first_match]
        simp only [List.find?_cons, hxb, hyb, cond_false]
        exact ih ys h2

/-- Being up to date for a listing only depends on the serialized form of
the index. -/
theorem up_to_date_congr (l₁ l₂ : List ExportItem) (listing : List Book)
    (h : l₁.map persistItem = l₂.map persistItem)
    (hu : up_to_date l₁ listing) : up_to_date l₂ listing := by
  intro b hb
  obtain ⟨e, he, hinfo⟩ := hu b hb
  have hc := first_match_congr b l₁ l₂ h
  rw [he] at hc
  cases hm : first_match l₂ b with
  | none => rw [hm] at hc; simp at hc
  | some e' =>
    rw [hm] at hc
    simp only [Option.map_some', Option.some.injEq] at hc
    have hinfo' : e'.info = e.info := by
      have h3 := congrArg ExportItemPersisted.info hc
      simpa [persistItem] using h3.symm
    exact ⟨e', rfl, by rw [hinfo', hinfo]⟩

/-- A pass over a listing the index is already up to date for: every
decision is `Skip` and the serialized index is unchanged. -/
theorem reconcile_all_unchanged (pol : Book → String → Bool)
    (nows : Book → String) (books : List ExportItem) (listing : List Book)
    (hu : up_to_date books listing) :
    (∀ d ∈ (reconcile_all pol nows books listing).2, d = false) ∧
    (reconcile_all pol nows books listing).1.map persistItem =
      books.map persistItem := by
  induction listing generalizing books with
  | nil => simp [reconcile_all]
  | cons b rest ih =>
    have hb := hu b (by simp)
    have heff := check_book_unchanged_effect (pol b) (nows b) b books hb
    have hu' : up_to_date (check_book (pol b) (nows b) b books).books rest := by
      refine up_to_date_congr books _ rest heff.2.symm fun x hx => ?_
      exact hu x (by simp [hx])
    have ihr := ih _ hu'
    constructor
    · intro d hd
      simp only [reconcile_all, List.mem_cons] at hd
      rcases hd with hd | hd
      · rw [hd]; exact heff.1
      · exact ihr.1 d hd
    · simp only [reconcile_all]
      rw [ihr.2, heff.2]

/-- C3: on a `FoundUnchanged` book, `check_book` returns `Skip` whatever the
policy answers, marks the first matching entry checked and changes nothing
else; consequently a pass over a listing the index is up to date for yields
`Skip` everywhere, and after saving, re-loading and passing again, every
decision is again `Skip` and the index saved after the second pass equals the
save of the original index. -/
theorem check_book_foundUnchanged_and_pass_idempotent :
    (∀ (policy : String → Bool) (now : String) (book : Book)
        (pre : List ExportItem) (e : ExportItem) (post : List ExportItem),
      (∀ x ∈ pre, x.info.asin ≠ book.asin) → e.info = book →
      check_book policy now book (pre ++ e :: post) =
        ⟨pre ++ { e with checked := true } :: post, false, e.checked⟩) ∧
    (∀ (pol1 pol2 : Book → String → Bool) (nows1 nows2 : Book → String)
        (books : List ExportItem) (listing : List Book),
      up_to_date books listing →
      (∀ d ∈ (reconcile_all pol1 nows1 books listing).2, d = false) ∧
      ∀ loaded,
        load_or_default
            (some (save (reconcile_all pol1 nows1 books listing).1)) =
          .ok loaded →
        (∀ d ∈ (reconcile_all pol2 nows2 loaded listing).2, d = false) ∧
        save (reconcile_all pol2 nows2 loaded listing).1 = save books) := by
  constructor
  · intro policy now book pre e post hpre heq
    have hmatch : e.info.asin = book.asin := by rw [heq]
    have key := check_book_found policy now book pre e post hpre hmatch
    simp [key, heq]
  · intro pol1 pol2 nows1 nows2 books listing hu
    have p1 := reconcile_all_unchanged pol1 nows1 books listing hu
    refine ⟨p1.1, fun loaded hload => ?_⟩
    have hl : loaded =
        (serialize_index (reconcile_all pol1 nows1 books listing).1).map
          loadItem := by
      simp only [load_or_default, save, Except.ok.injEq] at hload
      exact hload.symm
    have hmaps : loaded.map persistItem = books.map persistItem := by
      rw [hl, serialize_index, List.map_map, List.map_map]
      have hcomp : (persistItem ∘ loadItem) ∘ persistItem = persistItem :=
        funext fun _ => rfl
      rw [hcomp, p1.2]
    have hu2 : up_to_date loaded listing :=
      up_to_date_congr books loaded listing hmaps.symm hu
    have p2 := reconcile_all_unchanged pol2 nows2 loaded listing hu2
    refine ⟨p2.1, ?_⟩
    simp only [save, serialize_index]
    rw [p2.2, hmaps]

/-- Witness for C3: the unchanged-entry equation on a one-entry index, and
the two-pass idempotence on that index against its own one-book listing. -/
theorem check_book_foundUnchanged_and_pass_idempotent_witness :
    check_book (fun _ => true) "t1" dupBook ([] ++ dupEntry :: []) =
      ⟨[] ++ { dupEntry with checked := true } :: [], false, false⟩ ∧
    (∀ d ∈ (reconcile_all (fun _ _ => true) (fun _ => "t1") [dupEntry]
        [dupBook]).2, d = false) := by
  have h := check_book_foundUnchanged_and_pass_idempotent
  refine ⟨h.1 (fun _ => true) "t1" dupBook [] dupEntry [] (by simp) (by decide),
    (h.2 (fun _ _ => true) (fun _ _ => true) (fun _ => "t1") (fun _ => "t2")
      [dupEntry] [dupBook] ?_).1⟩
  intro b hb
  simp only [List.mem_singleton] at hb
  subst hb
  exact ⟨dupEntry, by decide, by decide⟩

/-- C4 counterexample: an index in which the ASIN "A" appears in two entries
(neither yet checked) and an observed book with that ASIN, for which
`check_book` does not fire its inconsistency warning: the `warn!` branch is
reached only when the first matching entry is already checked, not on the
mere presence of a duplicate. -/
theorem check_book_duplicate_no_warning :
    (dupIndex.map fun e => e.info.asin) = ["A", "A"] ∧
    obsBook.asin = "A" ∧
    (check_book (fun _ => false) "t1" obsBook dupIndex).warned = false := by
  decide

/-- C4 (amended): when the same ASIN appears in several entries, `check_book`
for an observed book with that ASIN mutates only the first matching entry in
scan order and proceeds without deduplicating, aborting, or touching the
later duplicate entries; its warning fires exactly when that first entry was
already marked checked (as when the same ASIN is checked twice in one run),
not on the mere presence of the duplicate. -/
theorem check_book_duplicate_first_match (policy : String → Bool)
    (now : String) (book : Book) (pre : List ExportItem) (e : ExportItem)
    (post : List ExportItem)
    (hpre : ∀ x ∈ pre, x.info.asin ≠ book.asin)
    (hmatch : e.info.asin = book.asin)
    (hdup : ∃ x ∈ post, x.info.asin = book.asin) :
    ∃ e', (check_book policy now book (pre ++ e :: post)).books =
        pre ++ e' :: post ∧
      e'.checked = true ∧
      (e' = { e with checked := true } ∨ e' = ⟨now, true, book⟩) ∧
      (check_book policy now book (pre ++ e :: post)).warned = e.checked := by
  have key := check_book_found policy now book pre e post hpre hmatch
  by_cases he : e.info = book
  · exact ⟨{ e with checked := true }, by simp [key, he], rfl, Or.inl rfl,
      by simp [key, he]⟩
  · by_cases hf : policy q_fetch_changed
    · exact ⟨⟨now, true, book⟩, by simp [key, he, hf], rfl, Or.inr rfl,
        by simp [key, he, hf]⟩
    · by_cases hu : policy q_update_meta
      · exact ⟨⟨now, true, book⟩, by simp [key, he, hf, hu], rfl, Or.inr rfl,
          by simp [key, he, hf, hu]⟩
      · exact ⟨{ e with checked := true }, by simp [key, he, hf, hu], rfl,
          Or.inl rfl, by simp [key, he, hf, hu]⟩

/-- Witness for the amended C4: the duplicate index, an always-no policy. -/
theorem check_book_duplicate_first_match_witness :
    ∃ e', (check_book (fun _ => false) "t1" obsBook
        ([] ++ dupEntry :: [dupEntry])).books = [] ++ e' :: [dupEntry] ∧
      e'.checked = true ∧
      (e' = { dupEntry with checked := true } ∨ e' = ⟨"t1", true, obsBook⟩) ∧
      (check_book (fun _ => false) "t1" obsBook
        ([] ++ dupEntry :: [dupEntry])).warned = dupEntry.checked :=
  check_book_duplicate_first_match (fun _ => false) "t1" obsBook []
    dupEntry [dupEntry] (by simp) (by decide) ⟨dupEntry, by simp, by decide⟩

/-- Splitting a `Forall₂` whose left list is an append. -/
theorem forall₂_append_split {α β : Type} {R : α → β → Prop}
    (as bs : List α) (cs : List β) (h : List.Forall₂ R (as ++ bs) cs) :
    ∃ cs₁ cs₂, cs = cs₁ ++ cs₂ ∧ List.Forall₂ R as cs₁ ∧
      List.Forall₂ R bs cs₂ := by
  induction as generalizing cs with
  | nil => exact ⟨[], cs, rfl, List.Forall₂.nil, by simpa using h⟩
  | cons a as ih =>
    cases h with
    | cons hab htail =>
      obtain ⟨cs₁, cs₂, rfl, h1, h2⟩ := ih _ htail
      exact ⟨_ :: cs₁, cs₂, rfl, List.Forall₂.cons hab h1, h2⟩

/-- Composing two `Forall₂`s through a pointwise weakening. -/
theorem forall₂_comp_weaken {α : Type} {R S T : α → α → Prop}
    (hw : ∀ a b c, R a b → S b c → T a c) {l₁ l₂ l₃ : List α}
    (h1 : List.Forall₂ R l₁ l₂) (h2 : List.Forall₂ S l₂ l₃) :
    List.Forall₂ T l₁ l₃ := by
  induction h1 generalizing l₃ with
  | nil => cases h2; exact .nil
  | cons hab _ ih =>
    cases h2 with
    | cons hbc h' => exact .cons (hw _ _ _ hab hbc) (ih h')

/-- `pass_rel` is reflexive. -/
theorem pass_rel_refl (listing : List Book) (e : ExportItem) :
    pass_rel listing e e :=
  ⟨rfl, fun h => h, Or.inl rfl, fun _ => rfl⟩

/-- One `check_book` step satisfies the pass relation for the one-book
listing. -/
theorem step_rel_pass_rel (now : String) (b : Book) (old new : ExportItem)
    (h : step_rel now b old new) : pass_rel [b] old new := by
  rcases h with rfl | ⟨hasin, rfl | rfl⟩
  · exact pass_rel_refl _ _
  · exact ⟨rfl, fun _ => rfl, Or.inl rfl,
      fun hn => absurd (by simpa using hasin) hn⟩
  · exact ⟨hasin.symm, fun _ => rfl, Or.inr (by simp),
      fun hn => absurd (by simpa using hasin) hn⟩

/-- The pass relation composes across a listing extended on the left. -/
theorem pass_rel_comp (b : Book) (rest : List Book)
    (old mid new : ExportItem) (h1 : pass_rel [b] old mid)
    (h2 : pass_rel rest mid new) : pass_rel (b :: rest) old new := by
  obtain ⟨ha1, hc1, hi1, hu1⟩ := h1
  obtain ⟨ha2, hc2, hi2, hu2⟩ := h2
  refine ⟨ha2.trans ha1, fun h => hc2 (hc1 h), ?_, ?_⟩
  · rcases hi2 with h2' | h2'
    · rcases hi1 with h1' | h1'
      · exact Or.inl (h2'.trans h1')
      · simp only [List.mem_singleton] at h1'
        exact Or.inr (by simp [h2', h1'])
    · exact Or.inr (List.mem_cons_of_mem _ h2')
  · intro hn
    simp only [List.map_cons, List.mem_cons, not_or] at hn
    have hmid : mid = old := hu1 (by simpa using hn.1)
    have : new = mid := hu2 (by rw [hmid]; exact hn.2)
    rw [this, hmid]

/-- Shape of a single `check_book` call: every pre-existing position is
either untouched or updated in place at a matching ASIN, and at most one new
entry — the freshly observed one — is appended at the very end. -/
theorem check_book_shape (policy : String → Bool) (now : String) (book : Book)
    (books : List ExportItem) :
    ∃ mid tail, (check_book policy now book books).books = mid ++ tail ∧
      List.Forall₂ (step_rel now book) books mid ∧
      (tail = [] ∨ tail = [⟨now, true, book⟩]) := by
  induction books with
  | nil =>
    by_cases hf : policy q_fetch_new
    · exact ⟨[], [⟨now, true, book⟩], by simp [check_book, hf], .nil, Or.inr rfl⟩
    · by_cases ha : policy q_add_index
      · exact ⟨[], [⟨now, true, book⟩], by simp [check_book, hf, ha], .nil,
          Or.inr rfl⟩
      · exact ⟨[], [], by simp [check_book, hf, ha], .nil, Or.inl rfl⟩
  | cons x rest ih =>
    by_cases hx : x.info.asin = book.asin
    · have hrest : List.Forall₂ (step_rel now book) rest rest :=
        List.forall₂_same.2 fun y _ => Or.inl rfl
      by_cases he : x.info = book
      · exact ⟨{ x with checked := true } :: rest, [],
          by simp [check_book, hx, he],
          .cons (Or.inr ⟨hx, Or.inl rfl⟩) hrest, Or.inl rfl⟩
      · by_cases hf : policy q_fetch_changed
        · exact ⟨⟨now, true, book⟩ :: rest, [],
            by simp [check_book, hx, he, hf],
            .cons (Or.inr ⟨hx, Or.inr rfl⟩) hrest, Or.inl rfl⟩
        · by_cases hu : policy q_update_meta
          · exact ⟨⟨now, true, book⟩ :: rest, [],
              by simp [check_book, hx, he, hf, hu],
              .cons (Or.inr ⟨hx, Or.inr rfl⟩) hrest, Or.inl rfl⟩
          · exact ⟨{ x with checked := true } :: rest, [],
              by simp [check_book, hx, he, hf, hu],
              .cons (Or.inr ⟨hx, Or.inl rfl⟩) hrest, Or.inl rfl⟩
    · obtain ⟨mid, tail, hbooks, hfa, htail⟩ := ih
      exact ⟨x :: mid, tail, by simp [check_book, hx, hbooks],
        .cons (Or.inl rfl) hfa, htail⟩

/-- Shape of a whole pass: pre-existing positions keep their ASINs, only
gain `checked` or a refreshed record from the listing, are untouched when
their ASIN never occurs in the listing, and everything beyond the original
length is a freshly created entry for an observed book. -/
theorem reconcile_all_shape (policy : Book → String → Bool)
    (nows : Book → String) (books : List ExportItem) (listing : List Book) :
    ∃ mid tail, (reconcile_all policy nows books listing).1 = mid ++ tail ∧
      List.Forall₂ (pass_rel listing) books mid ∧
      ∀ e ∈ tail, e.checked = true ∧ e.info ∈ listing := by
  induction listing generalizing books with
  | nil =>
    exact ⟨books, [], by simp [reconcile_all],
      List.forall₂_same.2 fun e _ => pass_rel_refl [] e, by simp⟩
  | cons b rest ih =>
    obtain ⟨mid₁, tail₁, hb₁, hf₁, ht₁⟩ :=
      check_book_shape (policy b) (nows b) b books
    obtain ⟨mid₂, tail₂, hb₂, hf₂, ht₂⟩ :=
      ih (check_book (policy b) (nows b) b books).books
    rw [hb₁] at hf₂
    obtain ⟨csa, csb, rfl, hfa, hfb⟩ := forall₂_append_split mid₁ tail₁ mid₂ hf₂
    have hres : (reconcile_all policy nows books (b :: rest)).1 =
        (csa ++ csb) ++ tail₂ := hb₂
    refine ⟨csa, csb ++ tail₂, by rw [hres, List.append_assoc], ?_, ?_⟩
    · exact forall₂_comp_weaken
        (fun o m n h1 h2 =>
          pass_rel_comp b rest o m n (step_rel_pass_rel (nows b) b o m h1) h2)
        hf₁ hfa
    · intro e he
      rcases List.mem_append.1 he with he | he
      · rcases ht₁ with rfl | rfl
        · cases hfb; simp at he
        · cases hfb with
          | cons hrel hnil =>
            cases hnil
            simp only [List.mem_singleton] at he
            subst he
            obtain ⟨ha, hc, hi, _⟩ := hrel
            refine ⟨hc rfl, ?_⟩
            rcases hi with h | h
            · rw [h]; exact List.mem_cons_self b rest
            · exact List.mem_cons_of_mem _ h
      · obtain ⟨h1, h3⟩ := ht₂ e he
        exact ⟨h1, List.mem_cons_of_mem _ h3⟩

/-- A pass keeps the ASIN at every pre-existing position. -/
theorem forall₂_pass_rel_asin_map (listing : List Book)
    {l₁ l₂ : List ExportItem}
    (h : List.Forall₂ (pass_rel listing) l₁ l₂) :
    l₂.map (·.info.asin) = l₁.map (·.info.asin) := by
  induction h with
  | nil => rfl
  | cons hab _ ih => simp [ih, hab.1]

/-- C5: across any sequence of `check_book` calls (a pass over any listing),
no existing entry is removed or reordered — the first `books.length`
positions of the result carry the original ASINs in the original order — and
every entry beyond them is a newly created one: checked, stamped with the
pass's timestamp, and storing an observed book, regardless of its position
in the listing. -/
theorem reconcile_all_ordering (policy : Book → String → Bool)
    (nows : Book → String) (books : List ExportItem) (listing : List Book) :
    books.length ≤ (reconcile_all policy nows books listing).1.length ∧
    ((reconcile_all policy nows books listing).1.take books.length).map
        (·.info.asin) = books.map (·.info.asin) ∧
    ∀ e ∈ (reconcile_all policy nows books listing).1.drop books.length,
      e.checked = true ∧ e.info ∈ listing := by
  obtain ⟨mid, tail, heq, hfa, htail⟩ :=
    reconcile_all_shape policy nows books listing
  have hlen : books.length = mid.length := hfa.length_eq
  refine ⟨?_, ?_, ?_⟩
  · rw [heq, List.length_append, ← hlen]
    exact Nat.le_add_right _ _
  · rw [heq, hlen, List.take_left]
    exact forall₂_pass_rel_asin_map listing hfa
  · rw [heq, hlen, List.drop_left]
    exact htail

/-- Witness for C5: an empty index against a one-book listing with an
always-yes policy appends exactly the new entry at the end. -/
theorem reconcile_all_ordering_witness :
    ([] : List ExportItem).length ≤
      (reconcile_all (fun _ _ => true) (fun _ => "t1") [] [dupBook]).1.length ∧
    (⟨"t1", true, dupBook⟩ : ExportItem).checked = true ∧
    (⟨"t1", true, dupBook⟩ : ExportItem).info ∈ [dupBook] := by
  have h := reconcile_all_ordering (fun _ _ => true) (fun _ => "t1") [] [dupBook]
  have hmem := h.2.2 ⟨"t1", true, dupBook⟩ (by decide)
  exact ⟨h.1, hmem.1, hmem.2⟩

/-- C6: an entry whose ASIN occurs nowhere in the observed listing is left
exactly as it was (same position, still unchecked) by the whole pass, its
book is reported by the unchecked-entries check, and it is present at the
same position in the serialized index that the subsequent save writes. -/
theorem reconcile_all_unchecked_reported (policy : Book → String → Bool)
    (nows : Book → String) (listing : List Book) (pre : List ExportItem)
    (e : ExportItem) (post : List ExportItem)
    (hchk : e.checked = false)
    (habsent : ∀ b ∈ listing, b.asin ≠ e.info.asin) :
    (reconcile_all policy nows (pre ++ e :: post) listing).1[pre.length]? =
      some e ∧
    e.info ∈ warn_unchecked_books
      (reconcile_all policy nows (pre ++ e :: post) listing).1 ∧
    (serialize_index
      (reconcile_all policy nows (pre ++ e :: post) listing).1)[pre.length]? =
      some (persistItem e) := by
  obtain ⟨mid, tail, heq, hfa, htail⟩ :=
    reconcile_all_shape policy nows (pre ++ e :: post) listing
  obtain ⟨cs₁, cs₂, rfl, h1, h2⟩ := forall₂_append_split pre (e :: post) mid hfa
  obtain ⟨e₂, cs₂', hrel, hpost, rfl⟩ := List.forall₂_cons_left_iff.1 h2
  have hnot : e.info.asin ∉ listing.map (·.asin) := by
    intro hmem
    obtain ⟨b, hb, hba⟩ := List.mem_map.1 hmem
    exact habsent b hb hba
  have he₂ : e₂ = e := hrel.2.2.2 hnot
  have hlen : cs₁.length = pre.length := h1.length_eq.symm
  have hfin : (reconcile_all policy nows (pre ++ e :: post) listing).1 =
      cs₁ ++ (e :: (cs₂' ++ tail)) := by
    rw [heq, he₂, List.append_assoc, List.cons_append]
  have hget : (reconcile_all policy nows (pre ++ e :: post) listing).1[
      pre.length]? = some e := by
    rw [hfin, ← hlen, List.getElem?_append_right (Nat.le_refl _)]
    simp
  have hmem : e ∈ (reconcile_all policy nows (pre ++ e :: post) listing).1 := by
    rw [hfin]
    exact List.mem_append_right _ (List.mem_cons_self _ _)
  refine ⟨hget, ?_, ?_⟩
  · exact List.mem_map.2 ⟨e, List.mem_filter.2 ⟨hmem, by simp [hchk]⟩, rfl⟩
  · rw [serialize_index, List.getElem?_map, hget]
    rfl

/-- Witness for C6: a one-entry index with ASIN "B" against a one-book
listing with ASIN "A". -/
theorem reconcile_all_unchecked_reported_witness :
    (reconcile_all (fun _ _ => true) (fun _ => "t1")
        (([] : List ExportItem) ++ otherEntry :: []) [dupBook]).1[
        ([] : List ExportItem).length]? = some otherEntry ∧
    otherEntry.info ∈ warn_unchecked_books
      (reconcile_all (fun _ _ => true) (fun _ => "t1")
        (([] : List ExportItem) ++ otherEntry :: []) [dupBook]).1 ∧
    (serialize_index (reconcile_all (fun _ _ => true) (fun _ => "t1")
        (([] : List ExportItem) ++ otherEntry :: []) [dupBook]).1)[
        ([] : List ExportItem).length]? = some (persistItem otherEntry) :=
  reconcile_all_unchecked_reported (fun _ _ => true) (fun _ => "t1") [dupBook]
    [] otherEntry [] rfl (by decide)

/-- When the loop finishes without a fetch failure, the index it hands to
`save` is exactly the index after the reconciliation pass. -/
theorem run_loop_ok_eq (policy : Book → String → Bool) (nows : Book → String)
    (fetchOk : Book → Bool) (books : List ExportItem) (listing : List Book)
    (fin : List ExportItem)
    (h : run_loop policy nows fetchOk books listing = .ok fin) :
    fin = (reconcile_all policy nows books listing).1 := by
  induction listing generalizing books with
  | nil =>
    simp only [run_loop, Except.ok.injEq] at h
    simp [reconcile_all, h]
  | cons b rest ih =>
    by_cases hf : (check_book (policy b) (nows b) b books).fetch = true
    · by_cases hok : fetchOk b = true
      · simp only [run_loop, hf, hok, if_true] at h
        exact ih _ h
      · simp [run_loop, hf, hok] at h
    · simp only [run_loop, hf, if_false, Bool.false_eq_true] at h
      exact ih _ h

/-- C7: the index file is written exactly once, after the full pass; any run
that ends in an error — in particular a per-item fetch/render failure, which
aborts the whole run — leaves the index file exactly as it was, with no save
performed; a run that succeeds performs exactly one save, whose content is
the index after reconciling the whole listing against the loaded index. -/
theorem export_async_single_save (stored : Option RawIndexData)
    (listing : List Book) (policy : Book → String → Bool)
    (nows : Book → String) (fetchOk : Book → Bool) :
    (∀ msg, (export_async stored listing policy nows fetchOk).outcome =
        .error msg →
      (export_async stored listing policy nows fetchOk).stored = stored ∧
      (export_async stored listing policy nows fetchOk).saves = 0) ∧
    ((export_async stored listing policy nows fetchOk).outcome = .ok () →
      (export_async stored listing policy nows fetchOk).saves = 1 ∧
      ∀ books, load_or_default stored = .ok books →
        (export_async stored listing policy nows fetchOk).stored =
          some (save (reconcile_all policy nows books listing).1)) ∧
    (∀ books b rest, load_or_default stored = .ok books →
      listing = b :: rest →
      (check_book (policy b) (nows b) b books).fetch = true → fetchOk b = false →
      (export_async stored listing policy nows fetchOk).outcome =
        .error "fetch or render failed" ∧
      (export_async stored listing policy nows fetchOk).stored = stored ∧
      (export_async stored listing policy nows fetchOk).saves = 0) := by
  cases hload : load_or_default stored with
  | error msg =>
    refine ⟨fun msg' _ => ?_, fun hok => ?_, fun books b rest hb _ _ _ => ?_⟩
    · exact ⟨by simp [export_async, hload], by simp [export_async, hload]⟩
    · simp [export_async, hload] at hok
    · exact absurd hb (by simp)
  | ok books =>
    cases hloop : run_loop policy nows fetchOk books listing with
    | error msg =>
      refine ⟨fun msg' _ => ?_, fun hok => ?_,
        fun books' b rest hb hlist hfetch hfail => ?_⟩
      · exact ⟨by simp [export_async, hload, hloop],
          by simp [export_async, hload, hloop]⟩
      · simp [export_async, hload, hloop] at hok
      · injection hb with hbb
        subst hbb
        subst hlist
        have hrun : run_loop policy nows fetchOk books (b :: rest) =
            .error "fetch or render failed" := by
          simp [run_loop, hfetch, hfail]
        refine ⟨?_, ?_, ?_⟩ <;> simp [export_async, hload, hrun]
    | ok fin =>
      refine ⟨fun msg' hmsg => ?_, fun _ => ?_,
        fun books' b rest hb hlist hfetch hfail => ?_⟩
      · simp [export_async, hload, hloop] at hmsg
      · refine ⟨by simp [export_async, hload, hloop], fun books' hb => ?_⟩
        injection hb with hbb
        subst hbb
        have hfin := run_loop_ok_eq policy nows fetchOk books listing fin hloop
        simp [export_async, hload, hloop, hfin]
      · injection hb with hbb
        subst hbb
        subst hlist
        simp [run_loop, hfetch, hfail] at hloop

/-- Witness for C7: an empty listing over an absent index file succeeds and
performs exactly one save, writing the reconciled (empty) index. -/
theorem export_async_single_save_witness :
    (export_async none [] (fun _ _ => true) (fun _ => "t1")
        (fun _ => true)).saves = 1 ∧
    (export_async none [] (fun _ _ => true) (fun _ => "t1")
        (fun _ => true)).stored =
      some (save (reconcile_all (fun _ _ => true) (fun _ => "t1") [] []).1) := by
  have h := (export_async_single_save none [] (fun _ _ => true)
      (fun _ => "t1") (fun _ => true)).2.1 rfl
  exact ⟨h.1, h.2 [] rfl⟩

/-- C8: serialization keeps every entry's record and timestamp in memory
order, is blind to the `checked` flags, and loading a saved index returns
the same entries in the same order with every `checked` equal to `false`. -/
theorem save_excludes_checked_roundtrip (books : List ExportItem) :
    (serialize_index books).map (·.info) = books.map (·.info) ∧
    (serialize_index books).map (·.last_updated_time) =
      books.map (·.last_updated_time) ∧
    (∀ c : Bool,
      serialize_index (books.map fun e => { e with checked := c }) =
        serialize_index books) ∧
    load_or_default (some (save books)) =
      .ok (books.map fun e => { e with checked := false }) := by
  refine ⟨?_, ?_, fun c => ?_, ?_⟩
  · rw [serialize_index, List.map_map]; rfl
  · rw [serialize_index, List.map_map]; rfl
  · rw [serialize_index, serialize_index, List.map_map]; rfl
  · have h : load_or_default (some (save books)) =
        .ok ((serialize_index books).map loadItem) := rfl
    rw [h, serialize_index, List.map_map]
    rfl

/-- C9: loading returns the empty index when no file exists, the
deserialized entries when the file parses, and a fatal error when it does
not — in which case the whole run aborts before any reconciliation, leaving
the file untouched and performing no save. -/
theorem load_or_default_cases :
    load_or_default none = .ok [] ∧
    (∀ items, load_or_default (some (.wellFormed items)) =
      .ok (items.map loadItem)) ∧
    load_or_default (some .corrupt) = .error "CorruptIndex" ∧
    (∀ (listing : List Book) (policy : Book → String → Bool)
        (nows : Book → String) (fetchOk : Book → Bool),
      (export_async (some .corrupt) listing policy nows fetchOk).outcome =
        .error "CorruptIndex" ∧
      (export_async (some .corrupt) listing policy nows fetchOk).stored =
        some .corrupt ∧
      (export_async (some .corrupt) listing policy nows fetchOk).saves = 0) :=
  ⟨rfl, fun _ => rfl, rfl, fun _ _ _ _ => ⟨rfl, rfl, rfl⟩⟩

/-- C10: the interactive prompt prints the question followed by " (y/n): ";
a line normalizing (whitespace-trimmed, lower-cased) to "y" is accepted as
true, one normalizing to "n" as false; any other line only adds the
clarification and a re-prompt, consuming no decision and raising no error;
and whenever a decision is returned, the consumed line normalized to exactly
"y" (for true) or "n" (for false) and every earlier line was rejected. -/
theorem prompt_user_contract (question : String) :
    (∀ line rest b outs rem,
      prompt_user question (line :: rest) = some (b, outs, rem) →
      outs.head? = some (question ++ " (y/n): ")) ∧
    (∀ line rest, normalize_input line = "y" →
      prompt_user question (line :: rest) =
        some (true, [question ++ " (y/n): "], rest)) ∧
    (∀ line rest, normalize_input line = "n" →
      prompt_user question (line :: rest) =
        some (false, [question ++ " (y/n): "], rest)) ∧
    (∀ line rest, normalize_input line ≠ "y" → normalize_input line ≠ "n" →
      prompt_user question (line :: rest) =
        (prompt_user question rest).map fun r =>
          (r.1, (question ++ " (y/n): ") :: clarification :: r.2.1, r.2.2)) ∧
    (∀ inputs b outs rem,
      prompt_user question inputs = some (b, outs, rem) →
      ∃ pre line, inputs = pre ++ line :: rem ∧
        (∀ x ∈ pre, normalize_input x ≠ "y" ∧ normalize_input x ≠ "n") ∧
        normalize_input line = (if b then "y" else "n")) := by
  refine ⟨?_, ?_, ?_, ?_, ?_⟩
  · intro line rest b outs rem h
    by_cases hy : normalize_input line = "y"
    · simp only [prompt_user, hy, if_true] at h
      obtain ⟨-, rfl, -⟩ := h
      rfl
    · by_cases hn : normalize_input line = "n"
      · simp only [prompt_user, hy, hn, if_true, if_false] at h
        obtain ⟨-, rfl, -⟩ := h
        rfl
      · cases hrec : prompt_user question rest with
        | none => simp [prompt_user, hy, hn, hrec] at h
        | some r =>
          simp only [prompt_user, hy, hn, if_false, hrec] at h
          obtain ⟨-, rfl, -⟩ := h
          rfl
  · intro line rest h
    simp [prompt_user, h]
  · intro line rest h
    by_cases hy : normalize_input line = "y"
    · rw [h] at hy; simp at hy
    · simp [prompt_user, hy, h]
  · intro line rest hy hn
    cases hrec : prompt_user question rest with
    | none => simp [prompt_user, hy, hn, hrec]
    | some r => simp [prompt_user, hy, hn, hrec]
  · intro inputs
    induction inputs with
    | nil => intro b outs rem h; simp [prompt_user] at h
    | cons line rest ih =>
      intro b outs rem h
      by_cases hy : normalize_input line = "y"
      · simp only [prompt_user, hy, if_true] at h
        obtain ⟨rfl, -, rfl⟩ := h
        exact ⟨[], line, by simp, by simp, by simp [hy]⟩
      · by_cases hn : normalize_input line = "n"
        · simp only [prompt_user, hy, hn, if_true, if_false] at h
          obtain ⟨rfl, -, rfl⟩ := h
          exact ⟨[], line, by simp, by simp, by simp [hn]⟩
        · cases hrec : prompt_user question rest with
          | none => simp [prompt_user, hy, hn, hrec] at h
          | some r =>
            obtain ⟨b', outs', rem'⟩ := r
            simp only [prompt_user, hy, hn, if_false, hrec] at h
            obtain ⟨rfl, -, rfl⟩ := h
            obtain ⟨pre, line', heq, hrej, hacc⟩ := ih b outs' rem hrec
            exact ⟨line :: pre, line', by simp [heq], by
              intro x hx
              rcases List.mem_cons.1 hx with rfl | hx
              · exact ⟨hy, hn⟩
              · exact hrej x hx, hacc⟩

/-- Witness for C10: the line " Y " normalizes to "y" and is accepted as a
true decision on the first prompt. -/
theorem prompt_user_contract_witness :
    normalize_input " Y " = "y" ∧
    prompt_user "Continue" [" Y "] =
      some (true, ["Continue" ++ " (y/n): "], []) := by
  refine ⟨by decide, ?_⟩
  exact (prompt_user_contract "Continue").2.1 " Y " [] (by decide)

end NcliKindle
